import Mathlib

/-!
Shallow embedding of `crates/encriptions/src/{field.rs, curve.rs, point.rs}`:
prime-field arithmetic on canonical representatives (`BigUint` values modelled
as `ℕ`, signed `BigInt` as `ℤ`), curve membership, and the point-addition
group law.  Fallible operations (`Option` returns and `unwrap` panics) are
modelled with `Option`.
-/

namespace Encriptions

/-- Source function `rem_euclid` of `field.rs`: Euclidean remainder of a
signed `BigInt` by an unsigned `BigUint`.  The `Sign::Minus` branch computes
`(b * (|a|.div_floor(b) + 1) - |a|) % b`; any other sign yields `|a| % b`. -/
def rem_euclid (a : ℤ) (b : ℕ) : ℕ :=
  if a < 0 then (b * (a.natAbs / b + 1) - a.natAbs) % b
  else a.natAbs % b

/-- Model of `BigUint::modpow`: `a ^ e mod m`. -/
def modpow (a e m : ℕ) : ℕ := a ^ e % m

namespace LimitedFieldElement

/-- Constructor `LimitedFieldElement::new`: rejects representatives `≥ p`. -/
def new (p v : ℕ) : Option ℕ := if v ≥ p then none else some v

/-- Operator `impl Add`: `(x + y) % p`. -/
def add (p x y : ℕ) : ℕ := (x + y) % p

/-- Operator `impl Neg`: `rem_euclid(-(x as BigInt), p)`. -/
def neg (p x : ℕ) : ℕ := rem_euclid (-(x : ℤ)) p

/-- Operator `impl Sub`: `(x + (-y).0) % p`. -/
def sub (p x y : ℕ) : ℕ := (x + neg p y) % p

/-- Operator `impl Mul`: `(x * y) % p`. -/
def mul (p x y : ℕ) : ℕ := x * y % p

/-- Operator `impl Pow<BigInt>`: reduce the exponent with `rem_euclid`
modulo `p - 1`, then `modpow` by the reduced exponent. -/
def pow (p x : ℕ) (e : ℤ) : ℕ := modpow x (rem_euclid e (p - 1)) p

/-- Operator `impl Div`: Fermat inversion, `x * y ^ (p - 2)` via `pow`. -/
def div (p x y : ℕ) : ℕ := mul p x (pow p y ((p : ℤ) - 2))

/-- Conversion `impl From<i64>`: `new(rem_euclid(v, p)).unwrap()`.  For
`p > 0` the unwrap always succeeds because `rem_euclid _ p < p`, so the
result value is modelled directly. -/
def fromInt (p : ℕ) (k : ℤ) : ℕ := rem_euclid k p

end LimitedFieldElement

/-- Type `point.rs::GeneralPoint`: an affine pair or the point at infinity. -/
inductive GeneralPoint (T : Type) where
  | Finite (x y : T)
  | Infinite
deriving DecidableEq

namespace EllipticCurve

/-- Predicate `curve.rs::EllipticCurve::on`, specialised to
`LimitedFieldElement<P>`; the curve constants `a`, `b` are the already
converted field values.  Squaring and cubing go through the field `pow`, so
the exponents 2 and 3 are themselves reduced modulo `p - 1`. -/
def onCurve (p a b : ℕ) : GeneralPoint ℕ → Bool
  | .Finite x y =>
      LimitedFieldElement.pow p y 2 ==
        LimitedFieldElement.add p
          (LimitedFieldElement.add p (LimitedFieldElement.pow p x 3)
            (LimitedFieldElement.mul p a x)) b
  | .Infinite => true

end EllipticCurve

/-- Constant `curve.rs::Secp256k1::a()` = `T::from(0)`. -/
def Secp256k1.a (p : ℕ) : ℕ := LimitedFieldElement.fromInt p 0

/-- Constant `curve.rs::Secp256k1::b()` = `T::from(7)`. -/
def Secp256k1.b (p : ℕ) : ℕ := LimitedFieldElement.fromInt p 7

namespace PointOnCurve

/-- Constructor `PointOnCurve::new`: `C::on(&point).then(|| Self(point, _))`. -/
def new (p a b : ℕ) (pt : GeneralPoint ℕ) : Option (GeneralPoint ℕ) :=
  if EllipticCurve.onCurve p a b pt then some pt else none

/-- Operator `impl Add for PointOnCurve`, specialised to
`LimitedFieldElement<P>`.  The source computes `Self::new(...).unwrap()`;
the embedding returns the `Option` itself, so a `none` result is a panic of
the original code. -/
def add (p a b : ℕ) : GeneralPoint ℕ → GeneralPoint ℕ → Option (GeneralPoint ℕ)
  | .Infinite, r => some r
  | .Finite x y, .Infinite => some (.Finite x y)
  | .Finite x1 y1, .Finite x2 y2 =>
      if x1 = x2 then
        if y1 ≠ y2 then new p a b .Infinite
        else
          let s := LimitedFieldElement.div p
            (LimitedFieldElement.add p
              (LimitedFieldElement.mul p (LimitedFieldElement.pow p x1 2)
                (LimitedFieldElement.fromInt p 3)) a)
            (LimitedFieldElement.mul p y1 (LimitedFieldElement.fromInt p 2))
          let x3 := LimitedFieldElement.sub p
            (LimitedFieldElement.sub p (LimitedFieldElement.pow p s 2) x1) x2
          new p a b (.Finite x3
            (LimitedFieldElement.sub p
              (LimitedFieldElement.mul p s (LimitedFieldElement.sub p x1 x3)) y1))
      else
        let s := LimitedFieldElement.div p (LimitedFieldElement.sub p y2 y1)
          (LimitedFieldElement.sub p x2 x1)
        let x3 := LimitedFieldElement.sub p
          (LimitedFieldElement.sub p (LimitedFieldElement.pow p s 2) x1) x2
        new p a b (.Finite x3
          (LimitedFieldElement.sub p
            (LimitedFieldElement.mul p s (LimitedFieldElement.sub p x1 x3)) y1))

end PointOnCurve

/-- Coordinates of a point are genuine field representatives, `< p`.  This is
what the Rust type system guarantees for any `PointOnCurve` value, since all
`LimitedFieldElement` constructors and operators produce values `< p`. -/
def ValidCoords (p : ℕ) : GeneralPoint ℕ → Prop
  | .Finite x y => x < p ∧ y < p
  | .Infinite => True

/-- Mathlib Weierstrass model of the curve `y² = x³ + a·x + b` over `ZMod p`,
used to relate the code's addition formulas to the mathematical group law. -/
def Wcurve (p a b : ℕ) : WeierstrassCurve.Affine (ZMod p) :=
  { a₁ := 0, a₂ := 0, a₃ := 0, a₄ := (a : ZMod p), a₆ := (b : ZMod p) }

/-- Slope of the point-doubling branch as the spec states it (§4.3):
`s = (3·x₁² + a) / (2·y₁)`, as an element of `ZMod p` (written with the total
inverse of `ZMod`, which agrees with field division for prime `p`). -/
def slopeDouble (p a x1 y1 : ℕ) : ZMod p :=
  (3 * (x1 : ZMod p) ^ 2 + (a : ZMod p)) * (2 * (y1 : ZMod p))⁻¹

/-- Slope of the distinct-x branch as the spec states it (§4.3):
`s = (y₂ − y₁) / (x₂ − x₁)`, as an element of `ZMod p`. -/
def slopeChord (p x1 y1 x2 y2 : ℕ) : ZMod p :=
  ((y2 : ZMod p) - (y1 : ZMod p)) * ((x2 : ZMod p) - (x1 : ZMod p))⁻¹

/-! Bridge lemmas: the canonical representatives computed by the embedded
operations, cast into `ZMod p`, are the corresponding field operations. -/

lemma rem_euclid_lt (a : ℤ) {b : ℕ} (hb : 0 < b) : rem_euclid a b < b := by
  unfold rem_euclid
  split
  · exact Nat.mod_lt _ hb
  · exact Nat.mod_lt _ hb

lemma rem_euclid_emod (a : ℤ) {b : ℕ} (hb : 0 < b) :
    ((rem_euclid a b : ℕ) : ℤ) % (b : ℤ) = a % (b : ℤ) := by
  unfold rem_euclid
  split
  case isTrue h =>
    have hdm : b * (a.natAbs / b) + a.natAbs % b = a.natAbs := Nat.div_add_mod _ _
    have hmul : b * (a.natAbs / b + 1) = b * (a.natAbs / b) + b := by ring
    have hsub : b * (a.natAbs / b + 1) - a.natAbs = b - a.natAbs % b := by omega
    rw [hsub]
    have hle : a.natAbs % b ≤ b := le_of_lt (Nat.mod_lt _ hb)
    push_cast [Nat.cast_sub hle]
    rw [Int.emod_emod_of_dvd _ dvd_rfl]
    conv_lhs => rw [Int.sub_emod]
    rw [Int.emod_self, Int.emod_emod_of_dvd _ dvd_rfl, zero_sub]
    rw [abs_of_nonpos (le_of_lt h)]
    conv_lhs =>
      rw [show -(-a % (b : ℤ)) = 0 % (b : ℤ) - -a % (b : ℤ) by rw [Int.zero_emod]; ring]
    rw [← Int.sub_emod, zero_sub, neg_neg]
  case isFalse h =>
    push_cast
    rw [Int.emod_emod_of_dvd _ dvd_rfl, abs_of_nonneg (le_of_not_lt h)]

lemma rem_euclid_eq_emod (a : ℤ) {b : ℕ} (hb : 0 < b) :
    ((rem_euclid a b : ℕ) : ℤ) = a % (b : ℤ) := by
  have h2 : ((rem_euclid a b : ℕ) : ℤ) % (b : ℤ) = ((rem_euclid a b : ℕ) : ℤ) :=
    Int.emod_eq_of_lt (Int.natCast_nonneg _) (by exact_mod_cast rem_euclid_lt a hb)
  rw [← h2, rem_euclid_emod a hb]

lemma cast_rem_euclid (a : ℤ) {b : ℕ} (hb : 0 < b) :
    ((rem_euclid a b : ℕ) : ZMod b) = ((a : ℤ) : ZMod b) := by
  calc ((rem_euclid a b : ℕ) : ZMod b)
      = (((rem_euclid a b : ℕ) : ℤ) : ZMod b) := (Int.cast_natCast _).symm
    _ = (((a % (b : ℤ)) : ℤ) : ZMod b) := by rw [rem_euclid_eq_emod a hb]
    _ = ((a : ℤ) : ZMod b) := ZMod.intCast_mod a b

lemma add_lt {p : ℕ} (hp : 0 < p) (x y : ℕ) : LimitedFieldElement.add p x y < p :=
  Nat.mod_lt _ hp

lemma sub_lt {p : ℕ} (hp : 0 < p) (x y : ℕ) : LimitedFieldElement.sub p x y < p :=
  Nat.mod_lt _ hp

lemma mul_lt {p : ℕ} (hp : 0 < p) (x y : ℕ) : LimitedFieldElement.mul p x y < p :=
  Nat.mod_lt _ hp

lemma neg_lt {p : ℕ} (hp : 0 < p) (x : ℕ) : LimitedFieldElement.neg p x < p :=
  rem_euclid_lt _ hp

lemma pow_lt {p : ℕ} (hp : 0 < p) (x : ℕ) (e : ℤ) : LimitedFieldElement.pow p x e < p :=
  Nat.mod_lt _ hp

lemma div_lt {p : ℕ} (hp : 0 < p) (x y : ℕ) : LimitedFieldElement.div p x y < p :=
  Nat.mod_lt _ hp

lemma fromInt_lt {p : ℕ} (hp : 0 < p) (k : ℤ) : LimitedFieldElement.fromInt p k < p :=
  rem_euclid_lt _ hp

lemma cast_add {p : ℕ} (x y : ℕ) :
    ((LimitedFieldElement.add p x y : ℕ) : ZMod p) = (x : ZMod p) + (y : ZMod p) := by
  unfold LimitedFieldElement.add
  rw [ZMod.natCast_mod]
  push_cast
  rfl

lemma cast_mul {p : ℕ} (x y : ℕ) :
    ((LimitedFieldElement.mul p x y : ℕ) : ZMod p) = (x : ZMod p) * (y : ZMod p) := by
  unfold LimitedFieldElement.mul
  rw [ZMod.natCast_mod]
  push_cast
  rfl

lemma cast_neg {p : ℕ} (hp : 0 < p) (x : ℕ) :
    ((LimitedFieldElement.neg p x : ℕ) : ZMod p) = -(x : ZMod p) := by
  unfold LimitedFieldElement.neg
  rw [cast_rem_euclid _ hp]
  push_cast
  ring

lemma cast_sub {p : ℕ} (hp : 0 < p) (x y : ℕ) :
    ((LimitedFieldElement.sub p x y : ℕ) : ZMod p) = (x : ZMod p) - (y : ZMod p) := by
  unfold LimitedFieldElement.sub
  rw [ZMod.natCast_mod, Nat.cast_add, cast_neg hp]
  ring

lemma cast_modpow {p : ℕ} (x e : ℕ) :
    ((modpow x e p : ℕ) : ZMod p) = (x : ZMod p) ^ e := by
  unfold modpow
  rw [ZMod.natCast_mod]
  push_cast
  rfl

lemma cast_fromInt {p : ℕ} (hp : 0 < p) (k : ℤ) :
    ((LimitedFieldElement.fromInt p k : ℕ) : ZMod p) = ((k : ℤ) : ZMod p) :=
  cast_rem_euclid k hp

lemma rem_euclid_two {b : ℕ} (hb : 2 < b) : rem_euclid 2 b = 2 := by
  unfold rem_euclid
  rw [if_neg (by norm_num)]
  norm_num
  exact Nat.mod_eq_of_lt hb

lemma rem_euclid_three {b : ℕ} (hb : 3 < b) : rem_euclid 3 b = 3 := by
  unfold rem_euclid
  rw [if_neg (by norm_num)]
  norm_num
  exact Nat.mod_eq_of_lt hb

lemma cast_pow_two {p : ℕ} (x : ℕ) (h4 : 4 ≤ p) :
    ((LimitedFieldElement.pow p x 2 : ℕ) : ZMod p) = (x : ZMod p) ^ 2 := by
  unfold LimitedFieldElement.pow
  rw [rem_euclid_two (by omega), cast_modpow]

lemma cast_pow_three {p : ℕ} (x : ℕ) (h5 : 5 ≤ p) :
    ((LimitedFieldElement.pow p x 3 : ℕ) : ZMod p) = (x : ZMod p) ^ 3 := by
  unfold LimitedFieldElement.pow
  rw [rem_euclid_three (by omega), cast_modpow]

lemma rem_euclid_p_sub_two {p : ℕ} (h2 : 2 ≤ p) :
    rem_euclid ((p : ℤ) - 2) (p - 1) = p - 2 := by
  unfold rem_euclid
  rw [if_neg (by omega)]
  have h : ((p : ℤ) - 2).natAbs = p - 2 := by omega
  rw [h]
  exact Nat.mod_eq_of_lt (by omega)

lemma cast_div {p : ℕ} (hp : p.Prime) (x : ℕ) {y : ℕ} (hy : (y : ZMod p) ≠ 0) :
    ((LimitedFieldElement.div p x y : ℕ) : ZMod p) = (x : ZMod p) * (y : ZMod p)⁻¹ := by
  haveI : Fact p.Prime := ⟨hp⟩
  unfold LimitedFieldElement.div LimitedFieldElement.pow
  rw [rem_euclid_p_sub_two hp.two_le, cast_mul, cast_modpow]
  congr 1
  have h1 : (y : ZMod p) * (y : ZMod p) ^ (p - 2) = 1 := by
    rw [← pow_succ']
    have he : p - 2 + 1 = p - 1 := by
      have := hp.two_le
      omega
    rw [he]
    exact ZMod.pow_card_sub_one_eq_one hy
  exact (inv_eq_of_mul_eq_one_right h1).symm

lemma natCast_eq_iff_of_lt {p m n : ℕ} (hm : m < p) (hn : n < p) :
    ((m : ZMod p) = (n : ZMod p)) ↔ m = n := by
  haveI : NeZero p := ⟨by omega⟩
  constructor
  · intro h
    have hv := congrArg ZMod.val h
    rwa [ZMod.val_cast_of_lt hm, ZMod.val_cast_of_lt hn] at hv
  · intro h
    rw [h]

lemma onCurve_iff {p a b : ℕ} (h5 : 5 ≤ p) (x y : ℕ) :
    (EllipticCurve.onCurve p a b (.Finite x y) = true) ↔
      (y : ZMod p) ^ 2 = (x : ZMod p) ^ 3 + (a : ZMod p) * (x : ZMod p) + (b : ZMod p) := by
  have hp : 0 < p := by omega
  have hl : LimitedFieldElement.pow p y 2 < p := pow_lt hp _ _
  have hr : LimitedFieldElement.add p
      (LimitedFieldElement.add p (LimitedFieldElement.pow p x 3)
        (LimitedFieldElement.mul p a x)) b < p := add_lt hp _ _
  show (_ == _) = true ↔ _
  rw [beq_iff_eq, ← natCast_eq_iff_of_lt hl hr, cast_pow_two y (by omega), cast_add,
    cast_add, cast_pow_three x h5, cast_mul]

lemma natCast_ne_zero_of_lt {p y : ℕ} (hy : y ≠ 0) (hyp : y < p) : (y : ZMod p) ≠ 0 := by
  intro hc
  apply hy
  have h0 : (0 : ℕ) < p := by omega
  exact (natCast_eq_iff_of_lt hyp h0).mp (by rw [hc, Nat.cast_zero])

lemma two_ne_zero_zmod {p : ℕ} (h : 2 < p) : (2 : ZMod p) ≠ 0 := by
  have h2 : ((2 : ℕ) : ZMod p) ≠ 0 := natCast_ne_zero_of_lt (by norm_num) h
  simpa using h2

lemma Wcurve_a1 {p a b : ℕ} : (Wcurve p a b).a₁ = 0 := rfl

lemma Wcurve_a2 {p a b : ℕ} : (Wcurve p a b).a₂ = 0 := rfl

lemma Wcurve_a3 {p a b : ℕ} : (Wcurve p a b).a₃ = 0 := rfl

lemma Wcurve_a4 {p a b : ℕ} : (Wcurve p a b).a₄ = (a : ZMod p) := rfl

lemma Wcurve_a6 {p a b : ℕ} : (Wcurve p a b).a₆ = (b : ZMod p) := rfl

lemma equation_iff_zmod {p a b : ℕ} (x y : ZMod p) :
    (Wcurve p a b).Equation x y ↔
      y ^ 2 = x ^ 3 + (a : ZMod p) * x + (b : ZMod p) := by
  rw [WeierstrassCurve.Affine.equation_iff, Wcurve_a1, Wcurve_a2, Wcurve_a3, Wcurve_a4,
    Wcurve_a6]
  constructor <;> intro h <;> linear_combination h

lemma negY_zmod {p a b : ℕ} (x y : ZMod p) : (Wcurve p a b).negY x y = -y := by
  rw [WeierstrassCurve.Affine.negY, Wcurve_a1, Wcurve_a3]
  ring

lemma addX_zmod {p a b : ℕ} (x1 x2 L : ZMod p) :
    (Wcurve p a b).addX x1 x2 L = L ^ 2 - x1 - x2 := by
  rw [WeierstrassCurve.Affine.addX, Wcurve_a1, Wcurve_a2]
  ring

lemma addY_zmod {p a b : ℕ} (x1 x2 y1 L : ZMod p) :
    (Wcurve p a b).addY x1 x2 y1 L = L * (x1 - (L ^ 2 - x1 - x2)) - y1 := by
  rw [WeierstrassCurve.Affine.addY, WeierstrassCurve.Affine.negAddY, negY_zmod, addX_zmod]
  ring

/-- Core lemma for the doubling branch (`x₁ = x₂`, `y₁ = y₂`, `y₁ ≠ 0`): the
branch produces a value, the coordinates are reduced representatives, and they
match the tangent-line formulas of the spec in `ZMod p`. -/
lemma add_double_spec {p a b x1 y1 : ℕ} (hp : p.Prime) (h5 : 5 ≤ p)
    (hy1 : y1 < p) (hy0 : y1 ≠ 0)
    (hon : EllipticCurve.onCurve p a b (.Finite x1 y1) = true) :
    ∃ x3 y3 : ℕ, x3 < p ∧ y3 < p ∧
      PointOnCurve.add p a b (.Finite x1 y1) (.Finite x1 y1) = some (.Finite x3 y3) ∧
      (x3 : ZMod p) = slopeDouble p a x1 y1 ^ 2 - 2 * (x1 : ZMod p) ∧
      (y3 : ZMod p) = slopeDouble p a x1 y1 * ((x1 : ZMod p) - (x3 : ZMod p)) - (y1 : ZMod p) := by
  haveI : Fact p.Prime := ⟨hp⟩
  have hp0 : 0 < p := hp.pos
  set sN := LimitedFieldElement.div p
      (LimitedFieldElement.add p
        (LimitedFieldElement.mul p (LimitedFieldElement.pow p x1 2)
          (LimitedFieldElement.fromInt p 3)) a)
      (LimitedFieldElement.mul p y1 (LimitedFieldElement.fromInt p 2)) with hsN
  set x3N := LimitedFieldElement.sub p
      (LimitedFieldElement.sub p (LimitedFieldElement.pow p sN 2) x1) x1 with hx3N
  set y3N := LimitedFieldElement.sub p
      (LimitedFieldElement.mul p sN (LimitedFieldElement.sub p x1 x3N)) y1 with hy3N
  have hbranch : PointOnCurve.add p a b (.Finite x1 y1) (.Finite x1 y1)
      = PointOnCurve.new p a b (.Finite x3N y3N) := by
    simp only [PointOnCurve.add]
    rw [if_pos trivial, if_neg (by simp)]
  have hyK : (y1 : ZMod p) ≠ 0 := natCast_ne_zero_of_lt hy0 hy1
  have h2K : (2 : ZMod p) ≠ 0 := two_ne_zero_zmod (by omega)
  have hden : ((LimitedFieldElement.mul p y1 (LimitedFieldElement.fromInt p 2) : ℕ) :
      ZMod p) ≠ 0 := by
    rw [cast_mul, cast_fromInt hp0]
    push_cast
    exact mul_ne_zero hyK h2K
  have hsK : (sN : ZMod p) = slopeDouble p a x1 y1 := by
    rw [hsN, cast_div hp _ hden, cast_add, cast_mul, cast_pow_two x1 (by omega),
      cast_fromInt hp0, cast_mul, cast_fromInt hp0]
    unfold slopeDouble
    push_cast
    ring
  have hx3K : (x3N : ZMod p) = (sN : ZMod p) ^ 2 - (x1 : ZMod p) - (x1 : ZMod p) := by
    rw [hx3N, cast_sub hp0, cast_sub hp0, cast_pow_two sN (by omega)]
  have hy3K : (y3N : ZMod p) =
      (sN : ZMod p) * ((x1 : ZMod p) - (x3N : ZMod p)) - (y1 : ZMod p) := by
    rw [hy3N, cast_sub hp0, cast_mul, cast_sub hp0]
  have hW1 : (Wcurve p a b).Equation (x1 : ZMod p) (y1 : ZMod p) :=
    (equation_iff_zmod _ _).mpr ((onCurve_iff h5 x1 y1).mp hon)
  have hxy : ((x1 : ZMod p) = (x1 : ZMod p)) →
      (y1 : ZMod p) ≠ (Wcurve p a b).negY (x1 : ZMod p) (y1 : ZMod p) := by
    intro _
    rw [negY_zmod]
    intro hc
    have h2y : (2 : ZMod p) * (y1 : ZMod p) = 0 := by linear_combination hc
    exact hyK ((mul_eq_zero.mp h2y).resolve_left h2K)
  have hslope : (Wcurve p a b).slope (x1 : ZMod p) (x1 : ZMod p) (y1 : ZMod p) (y1 : ZMod p)
      = (sN : ZMod p) := by
    rw [WeierstrassCurve.Affine.slope_of_Y_ne rfl (hxy rfl), negY_zmod, Wcurve_a2,
      Wcurve_a4, Wcurve_a1, hsK]
    unfold slopeDouble
    rw [div_eq_mul_inv]
    ring
  have hEq := WeierstrassCurve.Affine.equation_add hW1 hW1 hxy
  rw [hslope, addX_zmod, addY_zmod, ← hx3K, ← hy3K] at hEq
  have honc : EllipticCurve.onCurve p a b (.Finite x3N y3N) = true := by
    rw [onCurve_iff h5]
    exact (equation_iff_zmod _ _).mp hEq
  refine ⟨x3N, y3N, sub_lt hp0 _ _, sub_lt hp0 _ _, ?_, ?_, ?_⟩
  · rw [hbranch]
    unfold PointOnCurve.new
    rw [if_pos honc]
  · rw [hx3K, hsK]
    ring
  · rw [hy3K, hsK]

/-- Core lemma for the distinct-x branch: the branch produces a value, the
coordinates are reduced representatives, and they match the secant-line
formulas of the spec in `ZMod p`. -/
lemma add_chord_spec {p a b x1 y1 x2 y2 : ℕ} (hp : p.Prime) (h5 : 5 ≤ p)
    (hx1 : x1 < p) (hx2 : x2 < p) (hne : x1 ≠ x2)
    (hon1 : EllipticCurve.onCurve p a b (.Finite x1 y1) = true)
    (hon2 : EllipticCurve.onCurve p a b (.Finite x2 y2) = true) :
    ∃ x3 y3 : ℕ, x3 < p ∧ y3 < p ∧
      PointOnCurve.add p a b (.Finite x1 y1) (.Finite x2 y2) = some (.Finite x3 y3) ∧
      (x3 : ZMod p) = slopeChord p x1 y1 x2 y2 ^ 2 - (x1 : ZMod p) - (x2 : ZMod p) ∧
      (y3 : ZMod p) = slopeChord p x1 y1 x2 y2 * ((x1 : ZMod p) - (x3 : ZMod p)) -
        (y1 : ZMod p) := by
  haveI : Fact p.Prime := ⟨hp⟩
  have hp0 : 0 < p := hp.pos
  set sN := LimitedFieldElement.div p (LimitedFieldElement.sub p y2 y1)
      (LimitedFieldElement.sub p x2 x1) with hsN
  set x3N := LimitedFieldElement.sub p
      (LimitedFieldElement.sub p (LimitedFieldElement.pow p sN 2) x1) x2 with hx3N
  set y3N := LimitedFieldElement.sub p
      (LimitedFieldElement.mul p sN (LimitedFieldElement.sub p x1 x3N)) y1 with hy3N
  have hbranch : PointOnCurve.add p a b (.Finite x1 y1) (.Finite x2 y2)
      = PointOnCurve.new p a b (.Finite x3N y3N) := by
    simp only [PointOnCurve.add]
    rw [if_neg hne]
  have hKxne : (x1 : ZMod p) ≠ (x2 : ZMod p) := by
    intro h
    exact hne ((natCast_eq_iff_of_lt hx1 hx2).mp h)
  have hden : ((LimitedFieldElement.sub p x2 x1 : ℕ) : ZMod p) ≠ 0 := by
    rw [cast_sub hp0]
    exact sub_ne_zero.mpr (Ne.symm hKxne)
  have hsK : (sN : ZMod p) = slopeChord p x1 y1 x2 y2 := by
    rw [hsN, cast_div hp _ hden, cast_sub hp0, cast_sub hp0]
    unfold slopeChord
    ring
  have hx3K : (x3N : ZMod p) = (sN : ZMod p) ^ 2 - (x1 : ZMod p) - (x2 : ZMod p) := by
    rw [hx3N, cast_sub hp0, cast_sub hp0, cast_pow_two sN (by omega)]
  have hy3K : (y3N : ZMod p) =
      (sN : ZMod p) * ((x1 : ZMod p) - (x3N : ZMod p)) - (y1 : ZMod p) := by
    rw [hy3N, cast_sub hp0, cast_mul, cast_sub hp0]
  have hW1 : (Wcurve p a b).Equation (x1 : ZMod p) (y1 : ZMod p) :=
    (equation_iff_zmod _ _).mpr ((onCurve_iff h5 x1 y1).mp hon1)
  have hW2 : (Wcurve p a b).Equation (x2 : ZMod p) (y2 : ZMod p) :=
    (equation_iff_zmod _ _).mpr ((onCurve_iff h5 x2 y2).mp hon2)
  have hxy : ((x1 : ZMod p) = (x2 : ZMod p)) →
      (y1 : ZMod p) ≠ (Wcurve p a b).negY (x2 : ZMod p) (y2 : ZMod p) :=
    fun h => absurd h hKxne
  have hslope : (Wcurve p a b).slope (x1 : ZMod p) (x2 : ZMod p) (y1 : ZMod p) (y2 : ZMod p)
      = (sN : ZMod p) := by
    rw [WeierstrassCurve.Affine.slope_of_X_ne hKxne, hsK]
    unfold slopeChord
    rw [div_eq_mul_inv, show (x1 : ZMod p) - (x2 : ZMod p)
      = -((x2 : ZMod p) - (x1 : ZMod p)) by ring, inv_neg]
    ring
  have hEq := WeierstrassCurve.Affine.equation_add hW1 hW2 hxy
  rw [hslope, addX_zmod, addY_zmod, ← hx3K, ← hy3K] at hEq
  have honc : EllipticCurve.onCurve p a b (.Finite x3N y3N) = true := by
    rw [onCurve_iff h5]
    exact (equation_iff_zmod _ _).mp hEq
  refine ⟨x3N, y3N, sub_lt hp0 _ _, sub_lt hp0 _ _, ?_, hx3K.trans (by rw [hsK]),
    hy3K.trans (by rw [hsK])⟩
  rw [hbranch]
  unfold PointOnCurve.new
  rw [if_pos honc]

/-- Inverse branch: equal stored x, different stored y, gives the point at
infinity. -/
lemma add_inv_branch {p a b x1 y1 y2 : ℕ} (hne : y1 ≠ y2) :
    PointOnCurve.add p a b (.Finite x1 y1) (.Finite x1 y2) = some .Infinite := by
  simp only [PointOnCurve.add]
  rw [if_pos trivial, if_pos hne]
  rfl

/-- Dividing by the zero representative silently yields zero: the Fermat
inversion computes `x * 0^(p-2) = x * 0 = 0` whenever `p > 2`. -/
lemma div_zero_eq_zero {p : ℕ} (h2 : 2 < p) (x : ℕ) :
    LimitedFieldElement.div p x 0 = 0 := by
  unfold LimitedFieldElement.div LimitedFieldElement.pow modpow
  rw [rem_euclid_p_sub_two (by omega), Nat.zero_pow (by omega)]
  simp [LimitedFieldElement.mul]

lemma rem_euclid_natCast_lt {n b : ℕ} (h : n < b) : rem_euclid (n : ℤ) b = n := by
  unfold rem_euclid
  rw [if_neg (not_lt.mpr (Int.natCast_nonneg n))]
  simp [Int.natAbs_ofNat, Nat.mod_eq_of_lt h]

lemma rem_euclid_congr {b : ℕ} (hb : 0 < b) {e1 e2 : ℤ}
    (h : e1 % (b : ℤ) = e2 % (b : ℤ)) : rem_euclid e1 b = rem_euclid e2 b := by
  have hc : ((rem_euclid e1 b : ℕ) : ℤ) = ((rem_euclid e2 b : ℕ) : ℤ) := by
    rw [rem_euclid_eq_emod e1 hb, rem_euclid_eq_emod e2 hb, h]
  exact_mod_cast hc

/-- C1 (counterexample to the claim as stated): over `F_13` the division
`5 / 0` does not abort with a `DivisionByZero` error; it returns the field
element `0` (a canonical representative below the prime). -/
theorem claim1_counterexample :
    LimitedFieldElement.div 13 5 0 = 0 ∧ LimitedFieldElement.div 13 5 0 < 13 := by
  exact ⟨by decide, by decide⟩

/-- C1 (amended): for a prime `p > 2`, division of any field element by the
zero element does not fail: it returns the zero field element, a valid
canonical representative. -/
theorem claim1_amended {p : ℕ} (hp : p.Prime) (h2 : 2 < p) (x : ℕ) :
    LimitedFieldElement.div p x 0 = 0 ∧ LimitedFieldElement.div p x 0 < p :=
  ⟨div_zero_eq_zero h2 x, by rw [div_zero_eq_zero h2 x]; omega⟩

/-- C1 witness: the amended statement evaluated at `p = 13`, `x = 6`. -/
theorem claim1_witness :
    LimitedFieldElement.div 13 6 0 = 0 ∧ LimitedFieldElement.div 13 6 0 < 13 :=
  claim1_amended (by decide) (by decide) 6

/-- C2 (code bug): the point `(10, 0)` lies on `y² = x³ + 7` over `F_19`
(the secp256k1 constants `a = 0`, `b = 7`), yet doubling it does not return
the point at infinity: the unguarded division by `2·y₁ = 0` produces a slope
of `0` and an off-curve candidate, so the internal `unwrap` panics (`none`). -/
theorem claim2_failing :
    Secp256k1.a 19 = 0 ∧ Secp256k1.b 19 = 7 ∧
    EllipticCurve.onCurve 19 0 7 (.Finite 10 0) = true ∧
    PointOnCurve.add 19 0 7 (.Finite 10 0) (.Finite 10 0) = none := by
  exact ⟨by decide, by decide, by decide, by decide⟩

/-- C3 (counterexample to the claim as stated): `19` is prime, `(10, 0)` is
on the curve, yet the addition `(10,0) + (10,0)` fails the constructor
re-check and panics. -/
theorem claim3_counterexample :
    Nat.Prime 19 ∧ EllipticCurve.onCurve 19 0 7 (.Finite 10 0) = true ∧
    PointOnCurve.add 19 0 7 (.Finite 10 0) (.Finite 10 0) = none := by
  exact ⟨by decide, by decide, by decide⟩

/-- C3 (amended): over a prime field with `p ≥ 5`, for reduced on-curve
points, and excluding the doubling case with `y₁ = 0`, the pair `(x₃, y₃)`
produced by the doubling and distinct-x branches satisfies the curve
equation, so the internal `Point::new(...).unwrap()` never rejects. -/
theorem claim3_amended {p a b : ℕ} (hp : p.Prime) (h5 : 5 ≤ p)
    (P Q : GeneralPoint ℕ) (hvP : ValidCoords p P) (hvQ : ValidCoords p Q)
    (honP : EllipticCurve.onCurve p a b P = true)
    (honQ : EllipticCurve.onCurve p a b Q = true)
    (hny0 : ∀ x y : ℕ, P = .Finite x y → Q = .Finite x y → y ≠ 0) :
    (PointOnCurve.add p a b P Q).isSome = true := by
  cases P with
  | Infinite => simp [PointOnCurve.add]
  | Finite x1 y1 =>
    cases Q with
    | Infinite => simp [PointOnCurve.add]
    | Finite x2 y2 =>
      by_cases hx : x1 = x2
      · subst hx
        by_cases hy : y1 = y2
        · subst hy
          have hy0 : y1 ≠ 0 := hny0 x1 y1 rfl rfl
          obtain ⟨x3, y3, _, _, heq, _, _⟩ := add_double_spec hp h5 hvP.2 hy0 honP
          rw [heq]
          rfl
        · rw [add_inv_branch hy]
          rfl
      · obtain ⟨x3, y3, _, _, heq, _, _⟩ :=
          add_chord_spec hp h5 hvP.1 hvQ.1 hx honP honQ
        rw [heq]
        rfl

/-- C3 witness: the amended statement at `p = 223`, adding `(170, 142)` and
`(60, 139)`. -/
theorem claim3_witness :
    (PointOnCurve.add 223 0 7 (.Finite 170 142) (.Finite 60 139)).isSome = true :=
  claim3_amended (by decide) (by decide) (.Finite 170 142) (.Finite 60 139)
    ⟨by decide, by decide⟩ ⟨by decide, by decide⟩ (by decide) (by decide)
    (by intro x y h1 h2; cases h1; simp at h2)

/-- C4 (counterexample to the claim as stated): over `F_3` the point `(0, 1)`
lies on `y² = x³ + 1` (secp256k1 constants reduced mod 3) both for the code's
membership test and for the genuine curve equation, and `y₁ = 1 ≠ 0`; yet
`P + P` is not the spec's `(x₃, y₃)`: the reduced exponents (`2 mod (p−1) = 0`)
corrupt the formulas and the addition panics (`none`). -/
theorem claim4_counterexample :
    Nat.Prime 3 ∧ EllipticCurve.onCurve 3 0 1 (.Finite 0 1) = true ∧
    ((1 : ℕ) : ZMod 3) ^ 2 =
      ((0 : ℕ) : ZMod 3) ^ 3 + ((0 : ℕ) : ZMod 3) * ((0 : ℕ) : ZMod 3) + ((1 : ℕ) : ZMod 3) ∧
    (1 : ℕ) ≠ 0 ∧
    PointOnCurve.add 3 0 1 (.Finite 0 1) (.Finite 0 1) = none := by
  exact ⟨by decide, by decide, by decide, by decide, by decide⟩

/-- C4 (amended): over a prime field with `p ≥ 5` and for reduced on-curve
points, the doubling branch (`P = Q`, `y₁ ≠ 0`) returns `(x₃, y₃)` with
`s = (3·x₁² + a)/(2·y₁)`, `x₃ = s² − 2·x₁`, `y₃ = s·(x₁ − x₃) − y₁`, and the
distinct-x branch returns `(x₃, y₃)` with `s = (y₂ − y₁)/(x₂ − x₁)`,
`x₃ = s² − x₁ − x₂`, `y₃ = s·(x₁ − x₃) − y₁`, all as equalities in `ZMod p`. -/
theorem claim4_amended {p a b x1 y1 x2 y2 : ℕ} (hp : p.Prime) (h5 : 5 ≤ p)
    (hx1 : x1 < p) (hy1 : y1 < p) (hx2 : x2 < p)
    (hon1 : EllipticCurve.onCurve p a b (.Finite x1 y1) = true)
    (hon2 : EllipticCurve.onCurve p a b (.Finite x2 y2) = true) :
    (x1 = x2 → y1 = y2 → y1 ≠ 0 → ∃ x3 y3 : ℕ,
      PointOnCurve.add p a b (.Finite x1 y1) (.Finite x2 y2) = some (.Finite x3 y3) ∧
      (x3 : ZMod p) = slopeDouble p a x1 y1 ^ 2 - 2 * (x1 : ZMod p) ∧
      (y3 : ZMod p) =
        slopeDouble p a x1 y1 * ((x1 : ZMod p) - (x3 : ZMod p)) - (y1 : ZMod p)) ∧
    (x1 ≠ x2 → ∃ x3 y3 : ℕ,
      PointOnCurve.add p a b (.Finite x1 y1) (.Finite x2 y2) = some (.Finite x3 y3) ∧
      (x3 : ZMod p) = slopeChord p x1 y1 x2 y2 ^ 2 - (x1 : ZMod p) - (x2 : ZMod p) ∧
      (y3 : ZMod p) =
        slopeChord p x1 y1 x2 y2 * ((x1 : ZMod p) - (x3 : ZMod p)) - (y1 : ZMod p)) := by
  constructor
  · intro hx hy hy0
    subst hx
    subst hy
    obtain ⟨x3, y3, _, _, heq, h1, h2⟩ := add_double_spec hp h5 hy1 hy0 hon1
    exact ⟨x3, y3, heq, h1, h2⟩
  · intro hx
    obtain ⟨x3, y3, _, _, heq, h1, h2⟩ := add_chord_spec hp h5 hx1 hx2 hx hon1 hon2
    exact ⟨x3, y3, heq, h1, h2⟩

/-- C4 witness: the amended statement at `p = 223` with `P = Q = (47, 71)`
(a genuine doubling). -/
theorem claim4_witness :
    ((47 : ℕ) = 47 → (71 : ℕ) = 71 → (71 : ℕ) ≠ 0 → ∃ x3 y3 : ℕ,
      PointOnCurve.add 223 0 7 (.Finite 47 71) (.Finite 47 71) = some (.Finite x3 y3) ∧
      (x3 : ZMod 223) = slopeDouble 223 0 47 71 ^ 2 - 2 * ((47 : ℕ) : ZMod 223) ∧
      (y3 : ZMod 223) = slopeDouble 223 0 47 71 *
        (((47 : ℕ) : ZMod 223) - (x3 : ZMod 223)) - ((71 : ℕ) : ZMod 223)) ∧
    ((47 : ℕ) ≠ 47 → ∃ x3 y3 : ℕ,
      PointOnCurve.add 223 0 7 (.Finite 47 71) (.Finite 47 71) = some (.Finite x3 y3) ∧
      (x3 : ZMod 223) = slopeChord 223 47 71 47 71 ^ 2 -
        ((47 : ℕ) : ZMod 223) - ((47 : ℕ) : ZMod 223) ∧
      (y3 : ZMod 223) = slopeChord 223 47 71 47 71 *
        (((47 : ℕ) : ZMod 223) - (x3 : ZMod 223)) - ((71 : ℕ) : ZMod 223)) :=
  claim4_amended (by decide) (by decide) (by decide) (by decide) (by decide)
    (by decide) (by decide)

/-- C5 (code bug): the point `(13, 0)` lies on `y² = x³ + 7` over `F_29`, and
its negated y-coordinate is again `0`, but `P + (x, −y)` does not return the
point at infinity: the doubling branch is taken and panics (`none`). -/
theorem claim5_failing :
    EllipticCurve.onCurve 29 0 7 (.Finite 13 0) = true ∧
    LimitedFieldElement.neg 29 0 = 0 ∧
    PointOnCurve.add 29 0 7 (.Finite 13 0)
      (.Finite 13 (LimitedFieldElement.neg 29 0)) = none := by
  exact ⟨by decide, by decide, by decide⟩

/-- C6 (counterexample to the claim as stated): over `F_3` the point `(2, 0)`
satisfies the curve equation `y² = x³ + 0·x + 1` in the field, yet
`Point::new` rejects it, because the membership test computes with exponents
reduced modulo `p − 1 = 2`. -/
theorem claim6_counterexample :
    (((0 : ℕ) : ZMod 3) ^ 2 =
      ((2 : ℕ) : ZMod 3) ^ 3 + ((0 : ℕ) : ZMod 3) * ((2 : ℕ) : ZMod 3) + ((1 : ℕ) : ZMod 3)) ∧
    PointOnCurve.new 3 0 1 (.Finite 2 0) = none := by
  exact ⟨by decide, by decide⟩

/-- C6 (amended): `Point::new` returns `some point` exactly when the code's
membership test accepts the coordinate; the test accepts `Infinity`
unconditionally, and for `p ≥ 5` the affine test is equivalent to the curve
equation `y² = x³ + a·x + b` in `ZMod p`. -/
theorem claim6_amended {p a b : ℕ} (h5 : 5 ≤ p) (pt : GeneralPoint ℕ) (x y : ℕ) :
    (PointOnCurve.new p a b pt =
      if EllipticCurve.onCurve p a b pt then some pt else none) ∧
    EllipticCurve.onCurve p a b .Infinite = true ∧
    (EllipticCurve.onCurve p a b (.Finite x y) = true ↔
      (y : ZMod p) ^ 2 =
        (x : ZMod p) ^ 3 + (a : ZMod p) * (x : ZMod p) + (b : ZMod p)) :=
  ⟨rfl, rfl, onCurve_iff h5 x y⟩

/-- C6 witness: the amended statement at `p = 223` with the on-curve point
`(192, 105)`. -/
theorem claim6_witness :
    (PointOnCurve.new 223 0 7 (.Finite 192 105) =
      if EllipticCurve.onCurve 223 0 7 (.Finite 192 105)
        then some (.Finite 192 105) else none) ∧
    EllipticCurve.onCurve 223 0 7 .Infinite = true ∧
    (EllipticCurve.onCurve 223 0 7 (.Finite 192 105) = true ↔
      ((105 : ℕ) : ZMod 223) ^ 2 =
        ((192 : ℕ) : ZMod 223) ^ 3 +
          ((0 : ℕ) : ZMod 223) * ((192 : ℕ) : ZMod 223) + ((7 : ℕ) : ZMod 223)) :=
  claim6_amended (by decide) (.Finite 192 105) 192 105

/-- C7: exponentiation first reduces the exponent to its Euclidean remainder
modulo `p − 1`, so `a^e = a^(e mod (p−1))` and any two exponents congruent
modulo `p − 1` give the same power (in particular negative exponents such as
`a^(p−4) = a^(−3)`). -/
theorem claim7 {p x : ℕ} (e e1 e2 : ℤ) (hp : p.Prime) (hx0 : x ≠ 0) (hxp : x < p)
    (hcong : e1 % ((p - 1 : ℕ) : ℤ) = e2 % ((p - 1 : ℕ) : ℤ)) :
    LimitedFieldElement.pow p x e =
      LimitedFieldElement.pow p x ((rem_euclid e (p - 1) : ℕ) : ℤ) ∧
    LimitedFieldElement.pow p x e1 = LimitedFieldElement.pow p x e2 := by
  have hb : 0 < p - 1 := by
    have := hp.two_le
    omega
  constructor
  · unfold LimitedFieldElement.pow
    rw [rem_euclid_natCast_lt (rem_euclid_lt e hb)]
  · unfold LimitedFieldElement.pow
    rw [rem_euclid_congr hb hcong]

/-- C7 witness: over `F_13` with `a = 12`, `12^5 = 12^(5 mod 12)` and
`12^9 = 12^(−3)` (`9 = p − 4` and `9 ≡ −3 (mod 12)`). -/
theorem claim7_witness :
    (LimitedFieldElement.pow 13 12 5 =
      LimitedFieldElement.pow 13 12 ((rem_euclid 5 (13 - 1) : ℕ) : ℤ)) ∧
    LimitedFieldElement.pow 13 12 9 = LimitedFieldElement.pow 13 12 (-3) :=
  claim7 5 9 (-3) (by decide) (by decide) (by decide) (by decide)

/-- C8: the Euclidean remainder helper returns a value in `[0, b)` congruent
to `a` modulo `b`; it is `a mod b` for `a ≥ 0`, and `b − ((−a) mod b)` for
`a < 0` when `(−a) mod b ≠ 0`, else `0`. -/
theorem claim8 (a : ℤ) {b : ℕ} (hb : 0 < b) :
    rem_euclid a b < b ∧
    ((rem_euclid a b : ℕ) : ℤ) % (b : ℤ) = a % (b : ℤ) ∧
    (0 ≤ a → ((rem_euclid a b : ℕ) : ℤ) = a % (b : ℤ)) ∧
    (a < 0 → rem_euclid a b =
      if a.natAbs % b = 0 then 0 else b - a.natAbs % b) := by
  refine ⟨rem_euclid_lt a hb, rem_euclid_emod a hb,
    fun _ => rem_euclid_eq_emod a hb, ?_⟩
  intro ha
  unfold rem_euclid
  rw [if_pos ha]
  have hdm : b * (a.natAbs / b) + a.natAbs % b = a.natAbs := Nat.div_add_mod _ _
  have hmul : b * (a.natAbs / b + 1) = b * (a.natAbs / b) + b := by ring
  have hsub : b * (a.natAbs / b + 1) - a.natAbs = b - a.natAbs % b := by omega
  rw [hsub]
  have hlt : a.natAbs % b < b := Nat.mod_lt _ hb
  by_cases h0 : a.natAbs % b = 0
  · rw [if_pos h0, h0, Nat.sub_zero, Nat.mod_self]
  · rw [if_neg h0]
    exact Nat.mod_eq_of_lt (by omega)

/-- C8 witness: the statement evaluated at `a = −5`, `b = 3`
(`rem_euclid (−5) 3 = 1`). -/
theorem claim8_witness :
    rem_euclid (-5) 3 < 3 ∧
    ((rem_euclid (-5) 3 : ℕ) : ℤ) % (3 : ℕ) = (-5) % (3 : ℕ) ∧
    (0 ≤ (-5 : ℤ) → ((rem_euclid (-5) 3 : ℕ) : ℤ) = (-5) % (3 : ℕ)) ∧
    ((-5 : ℤ) < 0 → rem_euclid (-5) 3 =
      if (-5 : ℤ).natAbs % 3 = 0 then 0 else 3 - (-5 : ℤ).natAbs % 3) :=
  claim8 (-5) (by decide)

/-- C9: every value returned by the field operations (guarded construction,
addition, subtraction, multiplication, negation, division, exponentiation,
conversion from a signed integer) is a canonical representative `< p`. -/
theorem claim9 {p : ℕ} (hp : 0 < p) (v x y : ℕ) (k e : ℤ) :
    (∀ w, LimitedFieldElement.new p v = some w → w < p) ∧
    LimitedFieldElement.add p x y < p ∧
    LimitedFieldElement.sub p x y < p ∧
    LimitedFieldElement.mul p x y < p ∧
    LimitedFieldElement.neg p x < p ∧
    LimitedFieldElement.div p x y < p ∧
    LimitedFieldElement.pow p x e < p ∧
    LimitedFieldElement.fromInt p k < p := by
  refine ⟨?_, add_lt hp x y, sub_lt hp x y, mul_lt hp x y, neg_lt hp x,
    div_lt hp x y, pow_lt hp x e, fromInt_lt hp k⟩
  intro w hw
  unfold LimitedFieldElement.new at hw
  by_cases hv : v ≥ p
  · rw [if_pos hv] at hw
    exact absurd hw (by simp)
  · rw [if_neg hv] at hw
    have hvw : v = w := Option.some.inj hw
    omega

/-- C9 witness: the statement evaluated at `p = 13`, `v = 5`, `x = 7`,
`y = 9`, `k = −3`, `e = −2`. -/
theorem claim9_witness :
    (∀ w, LimitedFieldElement.new 13 5 = some w → w < 13) ∧
    LimitedFieldElement.add 13 7 9 < 13 ∧
    LimitedFieldElement.sub 13 7 9 < 13 ∧
    LimitedFieldElement.mul 13 7 9 < 13 ∧
    LimitedFieldElement.neg 13 7 < 13 ∧
    LimitedFieldElement.div 13 7 9 < 13 ∧
    LimitedFieldElement.pow 13 7 (-2) < 13 ∧
    LimitedFieldElement.fromInt 13 (-3) < 13 :=
  claim9 (by decide) 5 7 9 (-3) (-2)

/-- C10: for a prime `p > 2`, dividing a field element by the zero element
returns the zero element and never signals an error: the Fermat inversion
computes `x * 0^(p−2)` with `modpow 0 (p−2) p = 0`. -/
theorem claim10 {p : ℕ} (hp : p.Prime) (h2 : 2 < p) (x : ℕ) (hx : x < p) :
    LimitedFieldElement.div p x 0 = 0 ∧ modpow 0 (p - 2) p = 0 := by
  refine ⟨div_zero_eq_zero h2 x, ?_⟩
  unfold modpow
  rw [Nat.zero_pow (by omega)]
  exact Nat.zero_mod p

/-- C10 witness: the statement evaluated at `p = 13`, `x = 7`. -/
theorem claim10_witness :
    LimitedFieldElement.div 13 7 0 = 0 ∧ modpow 0 (13 - 2) 13 = 0 :=
  claim10 (by decide) (by decide) 7 (by decide)

end Encriptions
